import Mathlib

/-!
Verification of the PageRank engine (`pagerank.py`) against its
natural-language specification.

Shallow embedding conventions:
* Python `float` arithmetic is modelled by exact rationals (`ℚ`); the
  spec's numeric tolerances (±1e-9, ±1e-6) are therefore witnessed by
  exact equalities.
* A Python `dict` keyed by pages is modelled as an association list
  `List (Node × _)` in insertion order; a Python `set` of pages is a
  duplicate-free `List Node`.
* A raised Python exception (`KeyError`, `IndexError`, `ZeroDivisionError`,
  `ValueError` from `max([])`) is modelled by `Option.none`.
* The `random` module is modelled by an index stream `seq : Nat → Nat`:
  each draw takes the element of the candidate list at index
  `seq i % length`.  Every list member is selectable, matching
  `random.choice` / `random.choices` with the everywhere-positive weights
  produced by `transition_model` for damping factors in (0,1).
* The unbounded `while True` loop of `iterate_pagerank` is given explicit
  fuel; `none` models a run that has not converged within the fuel.
-/

namespace PageRank

abbrev Node := String

/-- A corpus: mapping from page to its set of out-links, as built by `crawl`. -/
abbrev Graph := List (Node × List Node)

/-- The key set of a corpus dict, in insertion order. -/
def graphKeys (g : Graph) : List Node := g.map Prod.fst

/-- The Data Model invariants of the spec: non-empty node set, distinct
keys, and per node: out-links duplicate-free, no self-link, and every
out-link target is itself a key of the graph. -/
def ValidGraph (g : Graph) : Prop :=
  g ≠ [] ∧ (graphKeys g).Nodup ∧
    ∀ e ∈ g, e.2.Nodup ∧ e.1 ∉ e.2 ∧ ∀ l ∈ e.2, l ∈ graphKeys g

instance : DecidablePred ValidGraph := fun g => by
  unfold ValidGraph; infer_instance

/-- Sum of the values of a distribution dict. -/
def sumValues (l : List (Node × ℚ)) : ℚ := (l.map Prod.snd).sum

/-
`transition_model(corpus, page, damping_factor)` from pagerank.py.
`corpus[page]` raises `KeyError` when `page` is not a key (modelled by
`none`).  Otherwise: if the page has no out-links, every page gets mass
`1 / len(corpus)`; else every page gets `(1 - d) / len(corpus)` and pages
among the out-links additionally get `d / len(corpus[page])`.
-/
def transition_model (corpus : Graph) (page : Node) (damping_factor : ℚ) :
    Option (List (Node × ℚ)) :=
  match corpus.lookup page with
  | none => none
  | some links =>
    if links.length < 1 then
      some (corpus.map fun e => (e.1, 1 / (corpus.length : ℚ)))
    else
      let rnd := (1 - damping_factor) / (corpus.length : ℚ)
      let even := damping_factor / (links.length : ℚ)
      some (corpus.map fun e => (e.1, if e.1 ∉ links then rnd else even + rnd))

/- Association-list lookup helpers (Python dict access). -/

theorem lookup_eq_none_iff {α : Type} {g : List (Node × α)} {k : Node} :
    g.lookup k = none ↔ k ∉ g.map Prod.fst := by
  induction g with
  | nil => simp [List.lookup]
  | cons e t ih =>
    by_cases h : k = e.1
    · simp [List.lookup, h]
    · have hb : (k == e.1) = false := beq_false_of_ne h
      simp [List.lookup, hb, ih, h]

theorem mem_of_lookup_eq_some {α : Type} {g : List (Node × α)} {k : Node} {v : α}
    (h : g.lookup k = some v) : (k, v) ∈ g := by
  induction g with
  | nil => simp [List.lookup] at h
  | cons e t ih =>
    by_cases hk : k = e.1
    · subst hk
      simp [List.lookup] at h
      subst h
      exact List.mem_cons_self _ _
    · have hb : (k == e.1) = false := beq_false_of_ne hk
      simp [List.lookup, hb] at h
      exact List.mem_cons_of_mem _ (ih h)

theorem lookup_eq_some_of_mem {α : Type} {g : List (Node × α)} {k : Node} {v : α}
    (hnd : (g.map Prod.fst).Nodup) (h : (k, v) ∈ g) : g.lookup k = some v := by
  induction g with
  | nil => simp at h
  | cons e t ih =>
    simp only [List.map_cons, List.nodup_cons] at hnd
    rcases List.mem_cons.mp h with h1 | h1
    · subst h1
      simp [List.lookup]
    · have hk : k ≠ e.1 := by
        intro hk
        exact hnd.1 (hk ▸ (List.mem_map.mpr ⟨(k, v), h1, rfl⟩))
      have hb : (k == e.1) = false := beq_false_of_ne hk
      simp [List.lookup, hb]
      exact ih hnd.2 h1

/-- C10 — `transition_model` raises (a fatal `KeyError`) exactly when the
queried page is not a key of the corpus; for every page present in the
corpus it returns a distribution without error. -/
theorem transition_model_error_iff_missing (corpus : Graph) (page : Node)
    (d : ℚ) :
    transition_model corpus page d = none ↔ page ∉ graphKeys corpus := by
  unfold transition_model
  cases h : corpus.lookup page with
  | none =>
    simp [graphKeys, lookup_eq_none_iff.mp h]
  | some links =>
    have hmem : page ∈ graphKeys corpus :=
      List.mem_map.mpr ⟨(page, links), mem_of_lookup_eq_some h, rfl⟩
    by_cases hl : links.length < 1 <;> simp [hl, hmem]

/-- C2 — for a sink page (empty out-link set) in a valid graph,
`transition_model` returns exactly the uniform distribution `1/|V|` on
every node of the graph, for every damping factor (the result does not
mention the damping factor at all). -/
theorem transition_model_sink_uniform (corpus : Graph) (page : Node) (d : ℚ)
    (hg : ValidGraph corpus) (hmem : (page, []) ∈ corpus) :
    transition_model corpus page d =
      some (corpus.map fun e => (e.1, 1 / (corpus.length : ℚ))) := by
  have hl : corpus.lookup page = some [] :=
    lookup_eq_some_of_mem hg.2.1 hmem
  simp [transition_model, hl]

def twoGraph : Graph := [("1.html", ["2.html"]), ("2.html", ["1.html"])]

/- List-sum helpers used throughout the rank-mass accounting. -/

theorem lsum_add {α : Type} (l : List α) (f g : α → ℚ) :
    (l.map fun x => f x + g x).sum = (l.map f).sum + (l.map g).sum := by
  induction l with
  | nil => simp
  | cons a t ih => simp [ih]; ring

theorem lsum_mul_left {α : Type} (l : List α) (c : ℚ) (f : α → ℚ) :
    (l.map fun x => c * f x).sum = c * (l.map f).sum := by
  induction l with
  | nil => simp
  | cons a t ih => simp [ih]; ring

theorem lsum_const {α : Type} (l : List α) (c : ℚ) :
    (l.map fun _ => c).sum = l.length * c := by
  induction l with
  | nil => simp
  | cons a t ih => simp [ih]; ring

theorem lsum_congr {α : Type} {l : List α} {f g : α → ℚ}
    (h : ∀ x ∈ l, f x = g x) : (l.map f).sum = (l.map g).sum := by
  rw [List.map_congr_left h]

theorem lsum_swap {α β : Type} (l₁ : List α) (l₂ : List β) (f : α → β → ℚ) :
    (l₁.map fun a => (l₂.map fun b => f a b).sum).sum =
      (l₂.map fun b => (l₁.map fun a => f a b).sum).sum := by
  induction l₁ with
  | nil => simp [lsum_const]
  | cons a t ih =>
    simp only [List.map_cons, List.sum_cons, ih, ← lsum_add]

/-- Summing an indicator of list membership over a duplicate-free key list:
each member of `links` is hit exactly once. -/
theorem sum_if_mem (K links : List Node) (c : ℚ) (hK : K.Nodup)
    (hl : links.Nodup) (hsub : ∀ x ∈ links, x ∈ K) :
    (K.map fun k => if k ∈ links then c else 0).sum =
      (links.length : ℚ) * c := by
  classical
  rw [← List.sum_toFinset _ hK]
  rw [← Finset.sum_filter]
  have hfil : K.toFinset.filter (fun k => k ∈ links) = links.toFinset := by
    ext x
    simp only [Finset.mem_filter, List.mem_toFinset]
    exact ⟨fun h => h.2, fun h => ⟨hsub x h, h⟩⟩
  rw [hfil, Finset.sum_const, List.toFinset_card_of_nodup hl]
  simp [mul_comm]

/-- Re-indexing a sum over corpus entries as a sum over corpus keys. -/
theorem lsum_entries_keys (g : Graph) (f : Node → ℚ) :
    (g.map fun e => f e.1).sum = ((graphKeys g).map f).sum := by
  rw [graphKeys, List.map_map]
  rfl

/-- C1 — for a valid graph, damping factor in (0,1) and a page of the
graph, `transition_model` returns a distribution with exactly one entry
per graph node (same keys, same order), total mass exactly 1 (hence
within 1e-9), and at least the teleport share `(1-d)/|V|` on every node. -/
theorem transition_model_distribution (corpus : Graph) (page : Node) (d : ℚ)
    (hg : ValidGraph corpus) (hd : 0 < d ∧ d < 1)
    (hp : page ∈ graphKeys corpus) :
    ∃ dist, transition_model corpus page d = some dist ∧
      dist.map Prod.fst = graphKeys corpus ∧
      sumValues dist = 1 ∧
      ∀ e ∈ dist, (1 - d) / (corpus.length : ℚ) ≤ e.2 := by
  obtain ⟨⟨k, links⟩, hmem, hk⟩ := List.mem_map.mp hp
  have hk' : k = page := hk
  subst hk'
  have hlk : corpus.lookup k = some links := lookup_eq_some_of_mem hg.2.1 hmem
  have hN : (0 : ℚ) < (corpus.length : ℚ) := by
    have : corpus.length ≠ 0 := fun h => hg.1 (List.length_eq_zero.mp h)
    exact_mod_cast Nat.pos_of_ne_zero this
  have hlinks := hg.2.2 _ hmem
  by_cases hsink : links.length < 1
  · -- sink branch: uniform 1/|V|
    refine ⟨corpus.map fun e => (e.1, 1 / (corpus.length : ℚ)),
      by simp [transition_model, hlk, hsink], ?_, ?_, ?_⟩
    · rw [List.map_map]
      rfl
    · unfold sumValues
      rw [List.map_map]
      have : ((corpus.map (Prod.snd ∘ fun e => (e.1, 1 / (corpus.length : ℚ))))).sum
          = (corpus.map fun _ => 1 / (corpus.length : ℚ)).sum := rfl
      rw [this, lsum_const]
      field_simp
    · intro e he
      obtain ⟨e', _, he'⟩ := List.mem_map.mp he
      have : e.2 = 1 / (corpus.length : ℚ) := by rw [← he']
      rw [this]
      exact (div_le_div_right hN).mpr (by linarith [hd.1])
  · -- non-sink branch: teleport share plus link share
    have hL : (0 : ℚ) < (links.length : ℚ) := by
      have : 1 ≤ links.length := Nat.le_of_not_lt hsink
      exact_mod_cast Nat.lt_of_lt_of_le Nat.zero_lt_one this
    refine ⟨corpus.map fun e =>
        (e.1, if e.1 ∉ links then (1 - d) / (corpus.length : ℚ)
          else d / (links.length : ℚ) + (1 - d) / (corpus.length : ℚ)),
      by simp only [transition_model, hlk, hsink, if_false], ?_, ?_, ?_⟩
    · rw [List.map_map]
      rfl
    · unfold sumValues
      rw [List.map_map]
      have hrw : (corpus.map (Prod.snd ∘ fun e =>
            (e.1, if e.1 ∉ links then (1 - d) / (corpus.length : ℚ)
              else d / (links.length : ℚ) + (1 - d) / (corpus.length : ℚ)))).sum
          = (corpus.map fun e => (1 - d) / (corpus.length : ℚ) +
              if e.1 ∈ links then d / (links.length : ℚ) else 0).sum := by
        apply lsum_congr
        intro e _
        by_cases h : e.1 ∈ links <;> simp [h, Function.comp] <;> ring
      rw [hrw, lsum_add, lsum_const]
      have h2 : (corpus.map fun e =>
            if e.1 ∈ links then d / (links.length : ℚ) else 0).sum
          = (links.length : ℚ) * (d / (links.length : ℚ)) := by
        have := lsum_entries_keys corpus
          (fun p => if p ∈ links then d / (links.length : ℚ) else 0)
        rw [this]
        exact sum_if_mem _ _ _ hg.2.1 hlinks.1 hlinks.2.2
      rw [h2]
      field_simp
    · intro e he
      obtain ⟨e', _, he'⟩ := List.mem_map.mp he
      have hsnd : e.2 = if e'.1 ∉ links then (1 - d) / (corpus.length : ℚ)
          else d / (links.length : ℚ) + (1 - d) / (corpus.length : ℚ) := by
        rw [← he']
      rw [hsnd]
      by_cases h : e'.1 ∈ links
      · simp only [h, not_true_eq_false, if_false]
        have : 0 < d / (links.length : ℚ) := div_pos hd.1 hL
        linarith
      · simp [h]

/-- Witness for C1 at a concrete graph, page and damping factor. -/
theorem transition_model_distribution_witness :
    (0 < (1 : ℚ)/2 ∧ (1 : ℚ)/2 < 1) ∧
    ∃ dist, transition_model twoGraph "1.html" (1/2) = some dist ∧
      dist.map Prod.fst = graphKeys twoGraph ∧
      sumValues dist = 1 ∧
      ∀ e ∈ dist, (1 - (1 : ℚ)/2) / (twoGraph.length : ℚ) ≤ e.2 :=
  ⟨by norm_num,
   transition_model_distribution twoGraph "1.html" (1/2) (by decide)
     (by norm_num) (by decide)⟩

/-- Witness for C2 at a concrete sink graph. -/
theorem transition_model_sink_uniform_witness :
    transition_model [("1.html", ([] : List Node)), ("2.html", ["1.html"])]
        "1.html" (17/20) =
      some [("1.html", 1/2), ("2.html", 1/2)] := by
  have h := transition_model_sink_uniform
    [("1.html", ([] : List Node)), ("2.html", ["1.html"])] "1.html" (17/20)
    (by decide) (by decide)
  rw [h]
  norm_num

/-
`iterate_pagerank(corpus, damping_factor)` from pagerank.py.
The rank dicts `old_dict` / `new_dict` are modelled as functions on
nodes (their key set is always the corpus key set); the dict returned
at the end is materialised as an association list over the corpus keys.
-/

/-- One inner-loop body of `iterate_pagerank`: the new rank of `page`
computed from the current ranks `old` (`tmp` accumulation over all
`link_page`, then `tmp *= d; tmp += (1-d)/page_num`). -/
def iterate_update (corpus : Graph) (d : ℚ) (old : Node → ℚ) :
    Node → ℚ := fun page =>
  d * (corpus.map fun le =>
        (if page ∈ le.2 then old le.1 / (le.2.length : ℚ) else 0) +
        (if le.2.length = 0 then old le.1 / (corpus.length : ℚ) else 0)).sum
    + (1 - d) / (corpus.length : ℚ)

/-- `max([abs(new_dict[x] - old_dict[x]) for x in old_dict])`.  The fold
starts at 0; since every element is an absolute value this agrees with
Python's `max` on the non-empty lists it is applied to. -/
def maxDiff (corpus : Graph) (new old : Node → ℚ) : ℚ :=
  ((graphKeys corpus).map fun x => |new x - old x|).foldr max 0

/-- The `while True` loop, with fuel; returns `old_dict` (not the freshly
computed `new_dict`) once the maximum change drops below 0.001. -/
def iterate_loop (corpus : Graph) (d : ℚ) :
    Nat → (Node → ℚ) → Option (Node → ℚ)
  | 0, _ => none
  | fuel + 1, old =>
    if maxDiff corpus (iterate_update corpus d old) old < 1/1000 then
      some old
    else
      iterate_loop corpus d fuel (iterate_update corpus d old)

/-- Initial ranks: every page starts at `1 / page_num`. -/
def pr_init (corpus : Graph) : Node → ℚ := fun _ => 1 / (corpus.length : ℚ)

/-- `iterate_pagerank`.  On an empty corpus the first `max([])` raises
`ValueError` (modelled by `none`); otherwise the loop runs on the uniform
initial ranks and the surviving `old_dict` is returned as a dict. -/
def iterate_pagerank (fuel : Nat) (corpus : Graph) (d : ℚ) :
    Option (List (Node × ℚ)) :=
  if corpus = [] then none
  else
    (iterate_loop corpus d fuel (pr_init corpus)).map
      fun old => corpus.map fun e => (e.1, old e.1)

/-- Structure of any value produced by the loop: it is the `k`-th iterate
of the update map for some `k` strictly below the fuel, and applying the
update once more changes every rank by less than 0.001. -/
theorem iterate_loop_spec (corpus : Graph) (d : ℚ) :
    ∀ fuel (old res : Node → ℚ),
      iterate_loop corpus d fuel old = some res →
      maxDiff corpus (iterate_update corpus d res) res < 1/1000 ∧
        ∃ k, k < fuel ∧ res = (iterate_update corpus d)^[k] old := by
  intro fuel
  induction fuel with
  | zero => intro old res h; simp [iterate_loop] at h
  | succ n ih =>
    intro old res h
    unfold iterate_loop at h
    by_cases hc : maxDiff corpus (iterate_update corpus d old) old < 1/1000
    · rw [if_pos hc] at h
      obtain rfl : old = res := by injection h
      exact ⟨hc, 0, Nat.succ_pos n, rfl⟩
    · rw [if_neg hc] at h
      obtain ⟨hres, k, hk, hkeq⟩ := ih _ _ h
      refine ⟨hres, k + 1, Nat.succ_lt_succ hk, ?_⟩
      rw [Function.iterate_succ_apply, hkeq]

/-- Mass conservation of one full update pass: if the current ranks sum
to 1 over the corpus keys, so do the updated ranks.  Uses the Data Model
invariants (distinct keys; out-links duplicate-free and pointing at
keys). -/
theorem iterate_update_sum (corpus : Graph) (d : ℚ) (old : Node → ℚ)
    (hg : ValidGraph corpus)
    (hold : ((graphKeys corpus).map old).sum = 1) :
    ((graphKeys corpus).map (iterate_update corpus d old)).sum = 1 := by
  have hN : ((corpus.length : ℚ)) ≠ 0 := by
    have : corpus.length ≠ 0 := fun h => hg.1 (List.length_eq_zero.mp h)
    exact_mod_cast this
  have hKlen : (graphKeys corpus).length = corpus.length := List.length_map _ _
  unfold iterate_update
  rw [lsum_add, lsum_mul_left, lsum_const, hKlen]
  have hconst : (corpus.length : ℚ) * ((1 - d) / (corpus.length : ℚ)) = 1 - d := by
    field_simp
  rw [hconst]
  -- the double sum: swap the order of summation
  have hswap :
      ((graphKeys corpus).map fun p => (corpus.map fun le =>
          (if p ∈ le.2 then old le.1 / (le.2.length : ℚ) else 0) +
          (if le.2.length = 0 then old le.1 / (corpus.length : ℚ) else 0)).sum).sum
        = (corpus.map fun le => ((graphKeys corpus).map fun p =>
          (if p ∈ le.2 then old le.1 / (le.2.length : ℚ) else 0) +
          (if le.2.length = 0 then old le.1 / (corpus.length : ℚ) else 0)).sum).sum :=
    lsum_swap _ _ _
  rw [hswap]
  -- each corpus entry contributes exactly its old rank
  have hentry : ∀ le ∈ corpus,
      ((graphKeys corpus).map fun p =>
        (if p ∈ le.2 then old le.1 / (le.2.length : ℚ) else 0) +
        (if le.2.length = 0 then old le.1 / (corpus.length : ℚ) else 0)).sum
      = old le.1 := by
    intro le hle
    have hinv := hg.2.2 le hle
    by_cases hs : le.2.length = 0
    · have hnil : le.2 = [] := List.length_eq_zero.mp hs
      rw [hnil]
      have hcg : ((graphKeys corpus).map fun p =>
          (if p ∈ ([] : List Node) then old le.1 / ((([] : List Node).length : ℕ) : ℚ) else 0) +
          (if ([] : List Node).length = 0 then old le.1 / (corpus.length : ℚ) else 0)).sum
          = ((graphKeys corpus).map fun _ => old le.1 / (corpus.length : ℚ)).sum := by
        apply lsum_congr
        intro p _
        simp
      rw [hcg, lsum_const, hKlen]
      field_simp
    · have hLpos : ((le.2.length : ℚ)) ≠ 0 := by exact_mod_cast hs
      have hcg : ((graphKeys corpus).map fun p =>
          (if p ∈ le.2 then old le.1 / (le.2.length : ℚ) else 0) +
          (if le.2.length = 0 then old le.1 / (corpus.length : ℚ) else 0)).sum
          = ((graphKeys corpus).map fun p =>
            if p ∈ le.2 then old le.1 / (le.2.length : ℚ) else 0).sum := by
        apply lsum_congr
        intro p _
        simp [hs]
      rw [hcg, sum_if_mem _ _ _ hg.2.1 hinv.1 hinv.2.2]
      field_simp
  rw [lsum_congr hentry, lsum_entries_keys corpus old, hold]
  ring

/-- Sums of the iterates of the update map all equal 1. -/
theorem iterate_iter_sum (corpus : Graph) (d : ℚ) (hg : ValidGraph corpus) :
    ∀ k, ((graphKeys corpus).map
      ((iterate_update corpus d)^[k] (pr_init corpus))).sum = 1 := by
  intro k
  induction k with
  | zero =>
    have hN : ((corpus.length : ℚ)) ≠ 0 := by
      have : corpus.length ≠ 0 := fun h => hg.1 (List.length_eq_zero.mp h)
      exact_mod_cast this
    have hKlen : (graphKeys corpus).length = corpus.length := List.length_map _ _
    simp only [Function.iterate_zero, id]
    unfold pr_init
    rw [lsum_const, hKlen]
    field_simp
  | succ n ih =>
    rw [Function.iterate_succ_apply']
    exact iterate_update_sum corpus d _ hg ih

/-- C3 — for a valid graph and damping factor in (0,1), the rank vector
after every full update step of `iterate_pagerank` sums to exactly 1 over
the corpus (hence within 1e-6), and so does any distribution the solver
returns. -/
theorem iterate_pagerank_sum_one (fuel k : Nat) (corpus : Graph) (d : ℚ)
    (hg : ValidGraph corpus) (hd : 0 < d ∧ d < 1) :
    ((graphKeys corpus).map
        ((iterate_update corpus d)^[k] (pr_init corpus))).sum = 1 ∧
    ∀ r, iterate_pagerank fuel corpus d = some r → sumValues r = 1 := by
  refine ⟨iterate_iter_sum corpus d hg k, ?_⟩
  intro r hr
  unfold iterate_pagerank at hr
  rw [if_neg hg.1] at hr
  obtain ⟨old, hloop, hmap⟩ := Option.map_eq_some'.mp hr
  obtain ⟨-, j, -, rfl⟩ := iterate_loop_spec corpus d fuel _ _ hloop
  subst hmap
  unfold sumValues
  rw [List.map_map]
  have : (corpus.map (Prod.snd ∘ fun e =>
        (e.1, (iterate_update corpus d)^[j] (pr_init corpus) e.1))).sum
      = (corpus.map fun e =>
        (iterate_update corpus d)^[j] (pr_init corpus) e.1).sum := rfl
  rw [this, lsum_entries_keys]
  exact iterate_iter_sum corpus d hg j

/-- Witness for C3 on the two-page cycle with one update step. -/
theorem iterate_pagerank_sum_one_witness :
    ((graphKeys twoGraph).map
        ((iterate_update twoGraph (17/20))^[1] (pr_init twoGraph))).sum = 1 ∧
    ∀ r, iterate_pagerank 1 twoGraph (17/20) = some r → sumValues r = 1 :=
  iterate_pagerank_sum_one 1 1 twoGraph (17/20) (by decide) (by norm_num)

/-- C4 — on the two-page mutual-link graph with damping 0.85 the solver
terminates (one pass suffices: the uniform start is already a fixed
point) and returns rank 1/2 for each page. -/
theorem iterate_pagerank_two_cycle :
    iterate_pagerank 1 twoGraph (85/100) =
      some [("1.html", 1/2), ("2.html", 1/2)] := by
  norm_num [iterate_pagerank, twoGraph, iterate_loop, maxDiff, iterate_update,
    pr_init, graphKeys, show ("1.html" : String) ≠ "2.html" from by decide,
    show ("2.html" : String) ≠ "1.html" from by decide,
    show ([("1.html", ["2.html"]), ("2.html", ["1.html"])] : Graph) ≠ []
      from by decide]

/-- C5 — whatever distribution `iterate_pagerank` returns is the rank
vector `old_dict` from BEFORE the final update pass: it is the `k`-th
iterate of the update map (while the last ranks actually computed were
the (k+1)-th), and one further update moves every rank by less than the
0.001 threshold. -/
theorem iterate_pagerank_returns_previous (fuel : Nat) (corpus : Graph)
    (d : ℚ) (r : List (Node × ℚ))
    (h : iterate_pagerank fuel corpus d = some r) :
    ∃ old, r = (corpus.map fun e => (e.1, old e.1)) ∧
      maxDiff corpus (iterate_update corpus d old) old < 1/1000 ∧
      ∃ k, k < fuel ∧ old = (iterate_update corpus d)^[k] (pr_init corpus) := by
  unfold iterate_pagerank at h
  by_cases hc : corpus = []
  · rw [if_pos hc] at h
    exact absurd h (by simp)
  · rw [if_neg hc] at h
    obtain ⟨old, hloop, hmap⟩ := Option.map_eq_some'.mp h
    obtain ⟨hdiff, k, hk, hkeq⟩ := iterate_loop_spec corpus d fuel _ _ hloop
    exact ⟨old, hmap.symm, hdiff, k, hk, hkeq⟩

/-- Witness for C5 on the two-page cycle. -/
theorem iterate_pagerank_returns_previous_witness :
    ∃ old, [(("1.html" : Node), (1:ℚ)/2), ("2.html", 1/2)] =
        (twoGraph.map fun e => (e.1, old e.1)) ∧
      maxDiff twoGraph (iterate_update twoGraph (85/100) old) old < 1/1000 ∧
      ∃ k, k < 1 ∧ old = (iterate_update twoGraph (85/100))^[k] (pr_init twoGraph) :=
  iterate_pagerank_returns_previous 1 twoGraph (85/100)
    [("1.html", 1/2), ("2.html", 1/2)]
    (by norm_num [iterate_pagerank, twoGraph, iterate_loop, maxDiff,
      iterate_update, pr_init, graphKeys,
      show ("1.html" : String) ≠ "2.html" from by decide,
      show ("2.html" : String) ≠ "1.html" from by decide,
      show ([("1.html", ["2.html"]), ("2.html", ["1.html"])] : Graph) ≠ []
        from by decide])

/-
`sample_pagerank(corpus, damping_factor, n)` from pagerank.py.
The `random` module is modelled by the index stream `seq`: a draw from a
non-empty candidate list takes the element at `seq i % length` (every
member is a possible outcome); `random.choice([])` raises `IndexError`
(modelled by `none`).
-/

/-- One random draw from a candidate list, driven by a stream index. -/
def pick_from (l : List Node) (i : Nat) : Option Node :=
  match l with
  | [] => none
  | a :: t =>
    some ((a :: t).get ⟨i % (a :: t).length, Nat.mod_lt i (Nat.succ_pos t.length)⟩)

theorem pick_from_mem {l : List Node} {i : Nat} {c : Node}
    (h : pick_from l i = some c) : c ∈ l := by
  cases l with
  | nil => simp [pick_from] at h
  | cons a t =>
    simp only [pick_from, Option.some.injEq] at h
    rw [← h]
    exact List.get_mem _ _ _

theorem pick_from_of_ne_nil {l : List Node} (h : l ≠ []) (i : Nat) :
    ∃ c, pick_from l i = some c ∧ c ∈ l := by
  cases l with
  | nil => exact absurd rfl h
  | cons a t => exact ⟨_, rfl, pick_from_mem rfl⟩

/-- `sample_count[sample] += 1` (the key is always present when called). -/
def incr_count (counts : List (Node × Nat)) (k : Node) : List (Node × Nat) :=
  counts.map fun e => if e.1 = k then (e.1, e.2 + 1) else e

theorem incr_count_keys (counts : List (Node × Nat)) (k : Node) :
    (incr_count counts k).map Prod.fst = counts.map Prod.fst := by
  unfold incr_count
  rw [List.map_map]
  apply List.map_congr_left
  intro e _
  by_cases h : e.1 = k <;> simp [h]

theorem incr_count_of_not_mem {counts : List (Node × Nat)} {k : Node}
    (h : k ∉ counts.map Prod.fst) : incr_count counts k = counts := by
  induction counts with
  | nil => rfl
  | cons e t ih =>
    simp only [List.map_cons, List.mem_cons] at h
    push_neg at h
    have he : e.1 ≠ k := fun hk => h.1 hk.symm
    have htail := ih h.2
    unfold incr_count at htail ⊢
    simp only [List.map_cons, if_neg he, htail]

theorem incr_count_sum {counts : List (Node × Nat)} {k : Node}
    (hnd : (counts.map Prod.fst).Nodup) (hk : k ∈ counts.map Prod.fst) :
    ((incr_count counts k).map Prod.snd).sum
      = ((counts.map Prod.snd).sum) + 1 := by
  induction counts with
  | nil => simp at hk
  | cons e t ih =>
    simp only [List.map_cons, List.nodup_cons] at hnd
    have hk' : k = e.1 ∨ k ∈ t.map Prod.fst := by
      rw [List.map_cons] at hk
      exact List.mem_cons.mp hk
    have htail : incr_count (e :: t) k
        = (if e.1 = k then (e.1, e.2 + 1) else e) :: incr_count t k := rfl
    rcases hk' with h1 | h1
    · have hknot : k ∉ t.map Prod.fst := by rw [h1]; exact hnd.1
      have hrest : incr_count t k = t := incr_count_of_not_mem hknot
      rw [htail, hrest, if_pos h1.symm]
      simp only [List.map_cons, List.sum_cons]
      omega
    · have he : e.1 ≠ k := fun hk' => hnd.1 (hk' ▸ h1)
      rw [htail, if_neg he]
      simp only [List.map_cons, List.sum_cons]
      rw [ih hnd.2 h1]
      omega

/-- Both branches of `transition_model` key the returned dict by the
corpus keys, and a page that is a corpus key always gets a distribution. -/
theorem transition_model_some_of_mem (corpus : Graph) (page : Node) (d : ℚ)
    (hp : page ∈ graphKeys corpus) :
    ∃ tm, transition_model corpus page d = some tm ∧
      tm.map Prod.fst = graphKeys corpus := by
  obtain ⟨links, h⟩ : ∃ links, corpus.lookup page = some links := by
    cases hl : corpus.lookup page with
    | none => exact absurd hp (lookup_eq_none_iff.mp hl)
    | some links => exact ⟨links, rfl⟩
  by_cases hl : links.length < 1
  · refine ⟨corpus.map fun e => (e.1, 1 / (corpus.length : ℚ)),
      by simp [transition_model, h, hl], ?_⟩
    rw [List.map_map]
    rfl
  · refine ⟨corpus.map fun e =>
        (e.1, if e.1 ∉ links then (1 - d) / (corpus.length : ℚ)
          else d / (links.length : ℚ) + (1 - d) / (corpus.length : ℚ)),
      by simp only [transition_model, h, hl, if_false], ?_⟩
    rw [List.map_map]
    rfl

/-- The sampling loop: `steps` remaining draws, `i` the position in the
randomness stream, `prev` the previous sample (`None` before the first
draw), `counts` the visit counters.  Each step draws the next page
(uniformly at first, then from the transition model) and counts it. -/
def sample_loop (corpus : Graph) (d : ℚ) (seq : Nat → Nat) :
    Nat → Nat → Option Node → List (Node × Nat) → Option (List (Node × Nat))
  | 0, _, _, counts => some counts
  | steps + 1, i, prev, counts =>
    let drawn : Option Node :=
      match prev with
      | some s =>
        match transition_model corpus s d with
        | none => none
        | some tm => pick_from (tm.map Prod.fst) (seq i)
      | none => pick_from (graphKeys corpus) (seq i)
    match drawn with
    | none => none
    | some nxt =>
      sample_loop corpus d seq steps (i + 1) (some nxt) (incr_count counts nxt)

/-- `sample_pagerank`.  `range(n)` performs `n.toNat` iterations; after
the loop each counter is divided by `n` — a `ZeroDivisionError` (modelled
by `none`) exactly when `n = 0` and the dict has a key; for negative `n`
Python divides without raising. -/
def sample_pagerank (corpus : Graph) (d : ℚ) (n : Int) (seq : Nat → Nat) :
    Option (List (Node × ℚ)) :=
  match sample_loop corpus d seq n.toNat 0 none (corpus.map fun e => (e.1, 0)) with
  | none => none
  | some counts =>
    if n = 0 ∧ counts ≠ [] then none
    else some (counts.map fun e => (e.1, (e.2 : ℚ) / (n : ℚ)))

theorem lsum_div {α : Type} (l : List α) (f : α → ℚ) (c : ℚ) :
    (l.map fun x => f x / c).sum = (l.map f).sum / c := by
  induction l with
  | nil => simp
  | cons a t ih => simp [ih]; ring

theorem lsum_cast (l : List (Node × Nat)) :
    (l.map fun e => ((e.2 : ℚ))).sum = (((l.map Prod.snd).sum : ℕ) : ℚ) := by
  induction l with
  | nil => simp
  | cons a t ih => simp [ih]

theorem init_counts_keys (corpus : Graph) :
    ((corpus.map fun e => (e.1, (0 : Nat))).map Prod.fst) = graphKeys corpus := by
  rw [List.map_map]
  rfl

theorem init_counts_sum (corpus : Graph) :
    (((corpus.map fun e => (e.1, (0 : Nat))).map Prod.snd)).sum = 0 := by
  induction corpus with
  | nil => rfl
  | cons a t ih => simpa using ih

/-- Main invariant of the sampling loop: for a valid graph it never
fails, it preserves the key set of the counters, and each step adds
exactly one visit. -/
theorem sample_loop_spec (corpus : Graph) (d : ℚ) (seq : Nat → Nat)
    (hg : ValidGraph corpus) :
    ∀ steps i prev counts,
      counts.map Prod.fst = graphKeys corpus →
      (∀ s, prev = some s → s ∈ graphKeys corpus) →
      ∃ res, sample_loop corpus d seq steps i prev counts = some res ∧
        res.map Prod.fst = graphKeys corpus ∧
        (res.map Prod.snd).sum = (counts.map Prod.snd).sum + steps := by
  intro steps
  induction steps with
  | zero =>
    intro i prev counts hkeys _
    exact ⟨counts, rfl, hkeys, rfl⟩
  | succ m ih =>
    intro i prev counts hkeys hprev
    have hKne : graphKeys corpus ≠ [] := by
      intro h
      exact hg.1 (List.map_eq_nil.mp h)
    have hstep : ∀ nxt, nxt ∈ graphKeys corpus →
        ∃ res, sample_loop corpus d seq m (i + 1) (some nxt)
            (incr_count counts nxt) = some res ∧
          res.map Prod.fst = graphKeys corpus ∧
          (res.map Prod.snd).sum = (counts.map Prod.snd).sum + (m + 1) := by
      intro nxt hnxt
      have hkeys' : (incr_count counts nxt).map Prod.fst = graphKeys corpus := by
        rw [incr_count_keys, hkeys]
      obtain ⟨res, hres, hrk, hrs⟩ := ih (i + 1) (some nxt)
        (incr_count counts nxt) hkeys' (fun s hs => by injection hs with h; exact h ▸ hnxt)
      refine ⟨res, hres, hrk, ?_⟩
      rw [hrs, incr_count_sum (hkeys ▸ hg.2.1) (hkeys ▸ hnxt)]
      omega
    cases prev with
    | none =>
      obtain ⟨c, hc, hcmem⟩ := pick_from_of_ne_nil hKne (seq i)
      obtain ⟨res, hres, hrk, hrs⟩ := hstep c hcmem
      refine ⟨res, ?_, hrk, hrs⟩
      simp only [sample_loop, hc]
      exact hres
    | some s =>
      have hs : s ∈ graphKeys corpus := hprev s rfl
      obtain ⟨tm, htm, htmk⟩ := transition_model_some_of_mem corpus s d hs
      have htmne : tm.map Prod.fst ≠ [] := by rw [htmk]; exact hKne
      obtain ⟨c, hc, hcmem⟩ := pick_from_of_ne_nil htmne (seq i)
      obtain ⟨res, hres, hrk, hrs⟩ := hstep c (htmk ▸ hcmem)
      refine ⟨res, ?_, hrk, hrs⟩
      simp only [sample_loop, htm, hc]
      exact hres

/-- C6 — for a valid graph, damping factor in (0,1), positive sample
count and any outcome of the draws, `sample_pagerank` succeeds and
returns the dict of visit counts divided by `n`: one entry per graph
node, the counts totalling `n`, and the values summing to exactly 1. -/
theorem sample_pagerank_sum_one (corpus : Graph) (d : ℚ) (n : Int)
    (seq : Nat → Nat) (hg : ValidGraph corpus) (hd : 0 < d ∧ d < 1)
    (hn : 1 ≤ n) :
    ∃ counts r,
      sample_loop corpus d seq n.toNat 0 none
        (corpus.map fun e => (e.1, 0)) = some counts ∧
      sample_pagerank corpus d n seq = some r ∧
      r = counts.map (fun e => (e.1, (e.2 : ℚ) / (n : ℚ))) ∧
      r.map Prod.fst = graphKeys corpus ∧
      (((counts.map Prod.snd).sum : ℕ) : ℤ) = n ∧
      sumValues r = 1 := by
  obtain ⟨counts, hcounts, hck, hcs⟩ :=
    sample_loop_spec corpus d seq hg n.toNat 0 none
      (corpus.map fun e => (e.1, 0)) (init_counts_keys corpus)
      (fun s hs => by cases hs)
  have hn0 : ¬(n = 0 ∧ counts ≠ []) := fun ⟨h0, _⟩ => by omega
  have hntn : ((n.toNat : ℕ) : ℤ) = n := Int.toNat_of_nonneg (by omega)
  have hsum : (((counts.map Prod.snd).sum : ℕ) : ℤ) = n := by
    rw [hcs, init_counts_sum]
    simpa using hntn
  refine ⟨counts, _, hcounts, ?_, rfl, ?_, hsum, ?_⟩
  · unfold sample_pagerank
    rw [hcounts]
    show (if n = 0 ∧ counts ≠ [] then none
      else some (counts.map fun e => (e.1, (e.2 : ℚ) / (n : ℚ)))) = _
    rw [if_neg hn0]
  · rw [List.map_map]
    have : (counts.map (Prod.fst ∘ fun e => (e.1, (e.2 : ℚ) / (n : ℚ))))
        = counts.map Prod.fst := rfl
    rw [this, hck]
  · unfold sumValues
    rw [List.map_map]
    have hrw : (counts.map (Prod.snd ∘ fun e => (e.1, (e.2 : ℚ) / (n : ℚ)))).sum
        = (counts.map fun e => ((e.2 : ℚ)) / (n : ℚ)).sum := rfl
    rw [hrw, lsum_div, lsum_cast]
    have hnq : ((n : ℚ)) ≠ 0 := by
      have : n ≠ 0 := by omega
      exact_mod_cast this
    have hcast : ((((counts.map Prod.snd).sum : ℕ)) : ℚ) = (n : ℚ) := by
      rw [← hsum, Int.cast_natCast]
    rw [hcast]
    field_simp

/-- Witness for C6: two draws on the two-page cycle. -/
theorem sample_pagerank_sum_one_witness :
    ∃ counts r,
      sample_loop twoGraph (1/2) (fun _ => 0) ((2 : ℤ).toNat) 0 none
        (twoGraph.map fun e => (e.1, 0)) = some counts ∧
      sample_pagerank twoGraph (1/2) 2 (fun _ => 0) = some r ∧
      r = counts.map (fun e => (e.1, (e.2 : ℚ) / ((2 : ℤ) : ℚ))) ∧
      r.map Prod.fst = graphKeys twoGraph ∧
      (((counts.map Prod.snd).sum : ℕ) : ℤ) = 2 ∧
      sumValues r = 1 :=
  sample_pagerank_sum_one twoGraph (1/2) 2 (fun _ => 0) (by decide)
    (by norm_num) (by norm_num)

theorem incr_init_indicator (corpus : Graph) (c : Node) :
    incr_count (corpus.map fun e => (e.1, (0 : Nat))) c
      = corpus.map fun e => (e.1, if e.1 = c then (1 : Nat) else 0) := by
  unfold incr_count
  rw [List.map_map]
  apply List.map_congr_left
  intro e _
  by_cases h : e.1 = c <;> simp [h]

theorem filter_indicator_nil (g : Graph) (c : Node) (hc : c ∉ graphKeys g) :
    ((g.map fun e => (e.1, if e.1 = c then (1 : ℚ) else 0)).filter
      fun e => decide (e.2 ≠ 0)) = [] := by
  induction g with
  | nil => rfl
  | cons a t ih =>
    simp only [graphKeys, List.map_cons] at hc
    have h1 : c ≠ a.1 := fun h => hc (h ▸ List.mem_cons_self _ _)
    have h2 : c ∉ graphKeys t := fun h => hc (List.mem_cons_of_mem _ h)
    have ha : a.1 ≠ c := fun h => h1 h.symm
    have htail := ih h2
    simp [List.filter_cons, ha] at htail ⊢
    exact htail

theorem filter_indicator (g : Graph) (c : Node) (hnd : (graphKeys g).Nodup)
    (hc : c ∈ graphKeys g) :
    ((g.map fun e => (e.1, if e.1 = c then (1 : ℚ) else 0)).filter
      fun e => decide (e.2 ≠ 0)) = [(c, 1)] := by
  induction g with
  | nil => simp [graphKeys] at hc
  | cons a t ih =>
    simp only [graphKeys, List.map_cons] at hc hnd
    rw [List.nodup_cons] at hnd
    rcases List.mem_cons.mp hc with h1 | h1
    · have hnotin : c ∉ graphKeys t := by
        simp only [graphKeys]
        rw [h1]
        exact hnd.1
      have htail := filter_indicator_nil t c hnotin
      subst h1
      simp [List.filter_cons] at htail ⊢
      exact htail
    · have ha : a.1 ≠ c := fun h => hnd.1 (h ▸ h1)
      have htail := ih hnd.2 h1
      simp [List.filter_cons, ha] at htail ⊢
      exact htail

/-- C7 — with `n = 1` and a valid graph, `sample_pagerank` draws exactly
one page (the uniformly chosen first sample) and returns the distribution
giving that page mass 1.0 and every other page mass 0.0; filtering the
result for non-zero entries leaves exactly that one page at mass 1. -/
theorem sample_pagerank_single_sample (corpus : Graph) (d : ℚ)
    (seq : Nat → Nat) (hg : ValidGraph corpus) :
    ∃ c, c ∈ graphKeys corpus ∧
      sample_pagerank corpus d 1 seq =
        some (corpus.map fun e => (e.1, if e.1 = c then (1 : ℚ) else 0)) ∧
      ((corpus.map fun e => (e.1, if e.1 = c then (1 : ℚ) else 0)).filter
          fun e => decide (e.2 ≠ 0)) = [(c, 1)] := by
  have hKne : graphKeys corpus ≠ [] := fun h => hg.1 (List.map_eq_nil_iff.mp h)
  obtain ⟨c, hc, hcm⟩ := pick_from_of_ne_nil hKne (seq 0)
  refine ⟨c, hcm, ?_, filter_indicator corpus c hg.2.1 hcm⟩
  unfold sample_pagerank
  have hloop : sample_loop corpus d seq ((1 : ℤ).toNat) 0 none
      (corpus.map fun e => (e.1, (0 : Nat)))
      = some (incr_count (corpus.map fun e => (e.1, (0 : Nat))) c) := by
    show sample_loop corpus d seq (0 + 1) 0 none _ = _
    simp only [sample_loop, hc]
  rw [hloop]
  show (if (1 : ℤ) = 0 ∧ incr_count (corpus.map fun e => (e.1, (0 : Nat))) c ≠ []
      then none
      else some ((incr_count (corpus.map fun e => (e.1, (0 : Nat))) c).map
        fun e => (e.1, (e.2 : ℚ) / ((1 : ℤ) : ℚ)))) = _
  rw [if_neg (by simp)]
  rw [incr_init_indicator, List.map_map]
  congr 1
  apply List.map_congr_left
  intro e _
  by_cases h : e.1 = c <;> simp [h]

/-- Witness for C7 on the two-page cycle. -/
theorem sample_pagerank_single_sample_witness :
    ∃ c, c ∈ graphKeys twoGraph ∧
      sample_pagerank twoGraph (17/20) 1 (fun _ => 1) =
        some (twoGraph.map fun e => (e.1, if e.1 = c then (1 : ℚ) else 0)) ∧
      ((twoGraph.map fun e => (e.1, if e.1 = c then (1 : ℚ) else 0)).filter
          fun e => decide (e.2 ≠ 0)) = [(c, 1)] :=
  sample_pagerank_single_sample twoGraph (17/20) (fun _ => 1) (by decide)

/-- C9 — the code does NOT reject a negative sample count: with
`n = -1` the sampling loop body runs zero times (`range(-1)` is empty)
and the final division by `n` succeeds, so `sample_pagerank` returns a
dict of zeros instead of failing fatally.  (With `n = 0` on a non-empty
graph it raises `ZeroDivisionError` only at the division step, after the
computation.)  This evaluation exhibits the failing input. -/
theorem sample_pagerank_negative_n_returns :
    sample_pagerank [("1.html", ([] : List Node))] (17/20) (-1) (fun _ => 0)
      = some [("1.html", 0)] := by
  have h0 : ((-1 : ℤ)).toNat = 0 := rfl
  unfold sample_pagerank
  rw [h0]
  show (if (-1 : ℤ) = 0 ∧ ([("1.html", (0 : Nat))] : List (Node × Nat)) ≠ []
      then none
      else some (([("1.html", (0 : Nat))] : List (Node × Nat)).map
        fun e => (e.1, (e.2 : ℚ) / ((-1 : ℤ) : ℚ)))) = _
  rw [if_neg (by norm_num)]
  norm_num

/-
`crawl(directory)` from pagerank.py.  The directory walk and the HTML
regex are I/O collaborators outside the core; their product — the
collection of (filename, raw-link-target set) pairs — is the input here.
The embedded part is the pure construction that follows:
`pages[filename] = set(links) - {filename}` (deduplication plus
self-link removal) and the second loop that keeps only links whose
target is itself a corpus page.
-/
def crawl (input : List (Node × List Node)) : Graph :=
  let pages : Graph :=
    input.map fun e => (e.1, e.2.dedup.filter fun l => decide (l ≠ e.1))
  pages.map fun e => (e.1, e.2.filter fun l => decide (l ∈ graphKeys pages))

/-- C8 — `crawl` prunes, from every node's raw link set, any
self-reference and any target that is not a declared node, and every
declared node stays a key of the built graph (sinks included: a node
whose link set empties out keeps its entry). -/
theorem crawl_prunes_links (input : List (Node × List Node)) (f : Node)
    (ls : List Node) (hmem : (f, ls) ∈ input) :
    graphKeys (crawl input) = graphKeys input ∧
    ∃ ls2, (f, ls2) ∈ crawl input ∧
      ∀ l, l ∈ ls2 ↔ (l ∈ ls ∧ l ≠ f ∧ l ∈ graphKeys input) := by
  have hpk : graphKeys (input.map fun e =>
      (e.1, e.2.dedup.filter fun l => decide (l ≠ e.1))) = graphKeys input := by
    unfold graphKeys
    rw [List.map_map]
    rfl
  constructor
  · unfold crawl graphKeys
    simp only [List.map_map]
    rfl
  · refine ⟨((ls.dedup.filter fun l => decide (l ≠ f)).filter
      fun l => decide (l ∈ graphKeys (input.map fun e =>
        (e.1, e.2.dedup.filter fun l => decide (l ≠ e.1))))), ?_, ?_⟩
    · unfold crawl
      apply List.mem_map.mpr
      refine ⟨(f, ls.dedup.filter fun l => decide (l ≠ f)), ?_, rfl⟩
      exact List.mem_map.mpr ⟨(f, ls), hmem, rfl⟩
    · intro l
      simp only [List.mem_filter, List.mem_dedup, decide_eq_true_eq, hpk]
      constructor
      · rintro ⟨⟨hl, hne⟩, hk⟩
        exact ⟨hl, hne, hk⟩
      · rintro ⟨hl, hne, hk⟩
        exact ⟨⟨hl, hne⟩, hk⟩

/-- Witness for C8: a raw link set holding a self-reference and an
external reference; both are pruned and the sink stays a key. -/
theorem crawl_prunes_links_witness :
    graphKeys (crawl [("a.html", ["a.html", "b.html", "x.html"]),
        ("b.html", [])])
      = graphKeys [("a.html", ["a.html", "b.html", "x.html"]), ("b.html", [])] ∧
    ∃ ls2, ("a.html", ls2) ∈ crawl [("a.html", ["a.html", "b.html", "x.html"]),
        ("b.html", [])] ∧
      ∀ l, l ∈ ls2 ↔ (l ∈ ["a.html", "b.html", "x.html"] ∧ l ≠ "a.html" ∧
        l ∈ graphKeys [("a.html", ["a.html", "b.html", "x.html"]),
          ("b.html", [])]) :=
  crawl_prunes_links [("a.html", ["a.html", "b.html", "x.html"]), ("b.html", [])]
    "a.html" ["a.html", "b.html", "x.html"] (by decide)

end PageRank
